import Mathlib

/-!
Verification development for the cc-youtube-harvest repository.

The repository has two Python source files:
  * `cc_index_only.py` — harvests YouTube channel URLs from the Common Crawl
    index API (namespace `CcIndexOnly` below);
  * `wayback_cdx_sourcer.py` — harvests from the Wayback CDX API
    (namespace `Wayback` below).

Strings are modelled as `List Char` (`Str`).  Pure string manipulation from
the Python standard library (`str.strip`, `str.rstrip`, `str.split`,
`urllib.parse.unquote`, `urllib.parse.urlparse`) is embedded directly; the
percent-decoder is modelled at the ASCII level (each decoded byte becomes the
character with that code), which coincides with Python on ASCII input.
Dates (`datetime` at midnight UTC) are modelled by year/month/day triples
together with their absolute day index; `timedelta` day arithmetic is
modelled on the absolute index.
-/

abbrev Str := List Char

/-- Hexadecimal digit test, as accepted by `urllib.parse.unquote`. -/
def isHexDig (c : Char) : Bool :=
  c.isDigit || ('a' ≤ c && c ≤ 'f') || ('A' ≤ c && c ≤ 'F')

/-- Numeric value of a hexadecimal digit. -/
def hexVal (c : Char) : Nat :=
  if c.isDigit then c.toNat - '0'.toNat
  else if 'a' ≤ c && c ≤ 'f' then c.toNat - 'a'.toNat + 10
  else c.toNat - 'A'.toNat + 10

/-- `urllib.parse.unquote`, modelled for ASCII: each valid `%XX` escape is
replaced by the character with code `XX`; invalid escapes are kept verbatim
(matching Python's behaviour). -/
def pyUnquote : Str → Str
  | [] => []
  | '%' :: a :: b :: rest =>
    if isHexDig a && isHexDig b then
      Char.ofNat (16 * hexVal a + hexVal b) :: pyUnquote rest
    else '%' :: pyUnquote (a :: b :: rest)
  | c :: rest => c :: pyUnquote rest

/-- `str.strip()` (whitespace removal at both ends). -/
def pyStrip (s : Str) : Str :=
  ((s.dropWhile Char.isWhitespace).reverse.dropWhile Char.isWhitespace).reverse

/-- Value of an ASCII decimal numeral. -/
def digitsToNat (ds : Str) : Nat :=
  ds.foldl (fun acc c => 10 * acc + (c.toNat - '0'.toNat)) 0

/-- Python's `int(str)` on ASCII input: strip surrounding whitespace, allow
one sign, then a non-empty run of decimal digits; `none` models the
`ValueError` raised on anything else.  (Python additionally accepts
underscore separators and non-ASCII digits, which HTTP header values never
contain.) -/
def pyInt? (s : Str) : Option Int :=
  match pyStrip s with
  | '+' :: ds => if ds ≠ [] ∧ ds.all Char.isDigit then some (digitsToNat ds) else none
  | '-' :: ds => if ds ≠ [] ∧ ds.all Char.isDigit then some (-(digitsToNat ds : Int)) else none
  | ds => if ds ≠ [] ∧ ds.all Char.isDigit then some (digitsToNat ds) else none

/-- `str.rstrip("/")`: drop every trailing slash. -/
def rstripSlash (s : Str) : Str :=
  (s.reverse.dropWhile (fun c => c = '/')).reverse

/-- `str.split("/")` (full split; `n` separators yield `n+1` parts). -/
def splitSlash : Str → List Str
  | [] => [[]]
  | c :: t =>
    if c = '/' then [] :: splitSlash t
    else
      match splitSlash t with
      | h :: r => (c :: h) :: r
      | [] => [[c]]

/-- Python's substring test `needle in haystack`. -/
def hasSub (needle : Str) : Str → Bool
  | [] => needle.isEmpty
  | c :: t => needle.isPrefixOf (c :: t) || hasSub needle t

/-- The suffix of `s` starting at the first occurrence of `needle`
(`s[s.find(needle):]`, meaningful when `hasSub needle s = true`). -/
def dropFromSub (needle : Str) : Str → Str
  | [] => []
  | c :: t => if needle.isPrefixOf (c :: t) then c :: t else dropFromSub needle t

/-- `s.split("-", 1)[-1]`: everything after the first dash (the whole string
when there is no dash, matching Python). -/
def afterFirstDash (s : Str) : Str :=
  if hasSub ['-'] s then (s.dropWhile (fun c => c ≠ '-')).drop 1 else s

/-- Case-insensitive literal prefix removal: `some rest` when `s` starts with
`pat` up to ASCII case, else `none`.  `pat` is given in lower case. -/
def dropCI (pat : Str) (s : Str) : Option Str :=
  if (s.take pat.length).map Char.toLower = pat then some (s.drop pat.length) else none

namespace CcIndexOnly

/-- The substitution performed by the anchored, case-insensitive regex
`^(?:https?://|//)?(?:m\.)?(?:www\.)?` in `cc_index_only.normalize_url`:
greedily strip an optional scheme, then an optional `m.`, then an optional
`www.` label. -/
def stripSchemeHost (s : Str) : Str :=
  let s1 :=
    match dropCI "https://".toList s with
    | some t => t
    | none =>
      match dropCI "http://".toList s with
      | some t => t
      | none =>
        match dropCI "//".toList s with
        | some t => t
        | none => s
  let s2 := (dropCI "m.".toList s1).getD s1
  (dropCI "www.".toList s2).getD s2

/-- The canonical host used to rebuild identities. -/
def ytBase : Str := "https://www.youtube.com".toList

/-- `cc_index_only.normalize_url` (lines 78–98): percent-decode and strip the
input, drop scheme and `m.`/`www.` labels, drop query and fragment, strip
trailing slashes, then apply Case A (two-part path `prefix/id`) or Case B
(`browse` path whose last segment embeds a dash-separated `UC` id); the empty
string is the rejection value. -/
def normalize_url (raw : Str) : Str :=
  let dec := pyUnquote (pyStrip raw)
  let path :=
    rstripSlash (((stripSchemeHost dec).takeWhile (fun c => c ≠ '?')).takeWhile
      (fun c => c ≠ '#'))
  let segments := splitSlash path
  if segments.length = 2 ∧ segments.getD 1 [] ≠ [] then
    ytBase ++ '/' :: segments.getD 1 []
  else if segments.headD [] = "browse".toList ∧ (segments.getLastD []).contains '-' then
    let candidate := afterFirstDash (segments.getLastD [])
    if "UC".toList.isPrefixOf candidate then
      ytBase ++ "/channel/".toList ++ candidate
    else []
  else []

end CcIndexOnly

namespace Wayback

/-- Characters allowed in a URL scheme by `urllib.parse`. -/
def isSchemeChar (c : Char) : Bool :=
  c.isAlpha || c.isDigit || c = '+' || c = '-' || c = '.'

/-- The scheme-removal step of `urllib.parse.urlsplit`: when the characters
before the first `:` form a valid scheme (non-empty, letter-led), drop them
together with the colon. -/
def stripSchemePart (s : Str) : Str :=
  match s.drop (s.takeWhile isSchemeChar).length with
  | ':' :: rest =>
    if s.takeWhile isSchemeChar ≠ [] ∧ ((s.takeWhile isSchemeChar).headD ' ').isAlpha then
      rest
    else s
  | _ => s

/-- The fragment-free part of the URL (everything before the first `#`). -/
def defrag (s : Str) : Str := s.takeWhile (fun c => c ≠ '#')

/-- `urlsplit(raw).path` (the path before `urlparse`'s parameter split):
split off the fragment, remove a scheme, skip a `//`-introduced network
location (which extends to the first `/` or `?`), and keep everything before
the query. -/
def urlsplitPath (s : Str) : Str :=
  if "//".toList.isPrefixOf (stripSchemePart (defrag s)) then
    (((stripSchemePart (defrag s)).drop 2).dropWhile
      (fun c => c ≠ '/' && c ≠ '?')).takeWhile (fun c => c ≠ '?')
  else (stripSchemePart (defrag s)).takeWhile (fun c => c ≠ '?')

/-- The parameter split that `urlparse` applies to the urlsplit path when it
contains a semicolon (`_splitparams`): the parameters are everything from
the first `;` of the last path segment onward, and are dropped from the
path; a `;` before the last `/` leaves the path unchanged. -/
def stripParams (p : Str) : Str :=
  if hasSub [';'] p then
    if hasSub ['/'] p then
      if hasSub [';'] ((p.reverse.takeWhile (fun c => c ≠ '/')).reverse) then
        p.take (p.length - ((p.reverse.takeWhile (fun c => c ≠ '/')).reverse).length)
          ++ ((p.reverse.takeWhile (fun c => c ≠ '/')).reverse).takeWhile (fun c => c ≠ ';')
      else p
    else p.takeWhile (fun c => c ≠ ';')
  else p

/-- `urlparse(raw).path`: the urlsplit path with parameters removed. -/
def urlparsePath (s : Str) : Str := stripParams (urlsplitPath s)

/-- `unquote(urlparse(raw).path)` — the `path` value used by
`wayback_cdx_sourcer.normalize_url`. -/
def pathOf (raw : Str) : Str := pyUnquote (urlparsePath raw)

/-- The bare-prefix tuple `("/@", "/c", "/channel/UC", "/user", "/+")`. -/
def bareFive : List Str :=
  ["/@".toList, "/c".toList, "/channel/UC".toList, "/user".toList, "/+".toList]

/-- The recognized path prefixes `("/@", "/c/", "/channel/", "/user/", "/+/")`. -/
def fivePre : List Str :=
  ["/@".toList, "/c/".toList, "/channel/".toList, "/user/".toList, "/+/".toList]

def ytBase : Str := "https://www.youtube.com".toList

def browseMark : Str := "/browse/".toList

def ucMark : Str := "UC".toList

/-- `wayback_cdx_sourcer.normalize_url` (lines 113–124): reject when the
slash-stripped path is one of five bare prefixes; rebuild `/browse/` paths
embedding `UC` from the first `UC` onward; otherwise accept paths starting
with a recognized prefix (the loop returns the same value whichever prefix
matches first), stripping trailing slashes; `none` models Python's `None`.
Faithful on inputs whose network location is bracket-free
(`netlocBrackets raw = false`, else `urlparse` may raise `ValueError`) and
which avoid the ASCII control/space characters that `urlsplit` strips. -/
def normalize_url (raw : Str) : Option Str :=
  if rstripSlash (pathOf raw) ∈ bareFive then none
  else if hasSub browseMark (pathOf raw) && hasSub ucMark (pathOf raw) then
    some (ytBase ++ "/channel/".toList ++ dropFromSub ucMark (pathOf raw))
  else if fivePre.any (fun p => p.isPrefixOf (pathOf raw)) then
    some (rstripSlash (ytBase ++ pathOf raw))
  else none

end Wayback

/-! ## Dates and the window planner

`datetime` values in `wayback_cdx_sourcer.py` are always at midnight UTC, so
a date is a year/month/day triple and chronological comparison is comparison
of the absolute day index `toAbs`.  `timedelta(days = k)` is `+ k` on the
absolute index. -/

structure Date where
  y : Nat
  m : Nat
  d : Nat
deriving DecidableEq

/-- Gregorian leap-year rule (as in Python's `calendar`). -/
def isLeap (y : Nat) : Bool := (y % 4 == 0 && y % 100 != 0) || y % 400 == 0

/-- `calendar.monthrange(y, m)[1]`: the number of days of month `m` in
year `y` (junk value 0 outside 1..12). -/
def monthLength (y : Nat) : Nat → Nat
  | 1 => 31
  | 2 => if isLeap y then 29 else 28
  | 3 => 31
  | 4 => 30
  | 5 => 31
  | 6 => 30
  | 7 => 31
  | 8 => 31
  | 9 => 30
  | 10 => 31
  | 11 => 30
  | 12 => 31
  | _ => 0

/-- Days of year `y` strictly before month `m`. -/
def daysBeforeMonth (y : Nat) : Nat → Nat
  | 0 => 0
  | m + 1 => daysBeforeMonth y m + monthLength y m

def daysInYear (y : Nat) : Nat := daysBeforeMonth y 13

/-- Days strictly before year `y` (counting a proleptic year 0; only
differences of `toAbs` values matter). -/
def daysBeforeYear : Nat → Nat
  | 0 => 0
  | y + 1 => daysBeforeYear y + daysInYear y

/-- Absolute day index of a date. -/
def toAbs (dt : Date) : Nat := daysBeforeYear dt.y + daysBeforeMonth dt.y dt.m + (dt.d - 1)

def validDate (dt : Date) : Prop :=
  1 ≤ dt.m ∧ dt.m ≤ 12 ∧ 1 ≤ dt.d ∧ dt.d ≤ monthLength dt.y dt.m

instance (dt : Date) : Decidable (validDate dt) := by unfold validDate; infer_instance

/-- The month advance at the end of the `month_boundaries` loop. -/
def nextMonthFirst (y m : Nat) : Date := if m = 12 then ⟨y + 1, 1, 1⟩ else ⟨y, m + 1, 1⟩

namespace Wayback

/-- Loop body of `month_boundaries` (lines 45–58).  `current` always has
day 1; the loop runs while `current <= end_dt` and yields
`(current, min(last-of-month, end_dt))`.  The fuel argument of the auxiliary
function is a month-count bound; `month_boundaries` supplies one that is
provably sufficient (see `monthWindowsAux_fuel_irrelevant`-style arguments in
the theorems below), so the embedding agrees with the unbounded `while`. -/
def monthWindowsAux (e : Date) : Nat → Nat → Nat → List (Date × Date)
  | 0, _, _ => []
  | fuel + 1, y, m =>
    if toAbs ⟨y, m, 1⟩ ≤ toAbs e then
      (⟨y, m, 1⟩,
        if toAbs e < toAbs ⟨y, m, monthLength y m⟩ then e else ⟨y, m, monthLength y m⟩)
        :: monthWindowsAux e fuel (nextMonthFirst y m).y (nextMonthFirst y m).m
    else []

/-- `month_boundaries(start_dt, end_dt)`: month windows from the first day of
the start month. -/
def month_boundaries (s e : Date) : List (Date × Date) :=
  monthWindowsAux e (e.y * 12 + e.m + 1 - (s.y * 12 + s.m)) s.y s.m

/-- Fuel-indexed loop body of `week_ranges`; `cur` advances by at least one
day per iteration, so the fuel supplied by `week_ranges` is provably
sufficient (see `weekGo_fuel`) and the embedding agrees with the unbounded
`while`. -/
def weekGo (hi : Nat) : Nat → Nat → List (Nat × Nat)
  | 0, _ => []
  | fuel + 1, cur =>
    if cur ≤ hi then (cur, min (cur + 6) hi) :: weekGo hi fuel (min (cur + 6) hi + 1) else []

/-- `week_ranges(start_dt, end_dt)` (lines 60–65) with the default
`days = 7`, on absolute day indices: windows `(cur, min(cur + 6, end))`. -/
def week_ranges (cur hi : Nat) : List (Nat × Nat) := weekGo hi (hi + 1 - cur) cur

/-- The full window plan of `backfill` for one pattern: weekly windows inside
each month window. -/
def planner (s e : Date) : List (Nat × Nat) :=
  (month_boundaries s e).flatMap fun w => week_ranges (toAbs w.1) (toAbs w.2)

/-- The daily fallback of `backfill` (lines 156–160): when a weekly window
fails, retry every single day `d` of the enclosing month window `[ms, me]`
as a one-day range `(d, d)`. -/
def fallback_days (ms me : Nat) : List (Nat × Nat) :=
  (List.range (me - ms + 1)).map fun d => (ms + d, ms + d)

end Wayback

/-- `covers lo hi ws`: the windows `ws` are ordered, non-overlapping,
gap-free and their union is exactly the day interval `[lo, hi]` (when
`lo = hi + 1`, the empty interval). -/
def covers : Nat → Nat → List (Nat × Nat) → Bool
  | lo, hi, [] => lo == hi + 1
  | lo, hi, w :: rest =>
    (w.1 == lo) && decide (lo ≤ w.2) && decide (w.2 ≤ hi) && covers (w.2 + 1) hi rest

/-! ## The dedup batcher -/

/-- In-memory state of the dedup-and-batch stage: the `seen` set (modelled as
a list), the current batch, and the batches flushed to the sink so far. -/
structure DState where
  seen : List Str
  batch : List Str
  flushed : List (List Str)

/-- Flushing a non-empty remainder batch (`if batch: save_batch(...)`): the
batch is submitted as one unit and cleared. -/
def flushRemainder (st : DState) : DState :=
  if st.batch ≠ [] then ⟨st.seen, [], st.flushed ++ [st.batch]⟩ else st

/-- Flushing when the batch has reached the configured size
(`if len(batch) >= batch_size: insert; batch.clear()`). -/
def flushIfFull (B : Nat) (st : DState) : DState :=
  if B ≤ st.batch.length then ⟨st.seen, [], st.flushed ++ [st.batch]⟩ else st

namespace CcIndexOnly

/-- One accepted record in `main` (lines 174–181): skip if already seen,
else add to `seen`, append to the batch, and flush (clearing the batch as a
unit) as soon as the batch reaches `batch_size`. -/
def offer (B : Nat) (st : DState) (x : Str) : DState :=
  if x ∈ st.seen then st
  else
    let batch2 := st.batch ++ [x]
    if B ≤ batch2.length then ⟨x :: st.seen, [], st.flushed ++ [batch2]⟩
    else ⟨x :: st.seen, batch2, st.flushed⟩

/-- One page of `main` (lines 163–184): the batch starts empty on each page,
records are offered in order, and a non-empty remainder is flushed at the end
of the page. -/
def runPage (B : Nat) (st : DState) (items : List Str) : DState :=
  flushRemainder (items.foldl (offer B) st)

/-- The dedup/batch behaviour of a whole `main` run over the given pages of
accepted identities, with `seen` preloaded from the sink (lines 147–184). -/
def runBatches (B : Nat) (preload : List Str) (pages : List (List Str)) : DState :=
  pages.foldl (runPage B) ⟨preload, [], []⟩

end CcIndexOnly

namespace Wayback

/-- One accepted record in `backfill` (lines 173–177, identically 161–165 in
the daily-fallback branch): skip if seen, else record and append to the
batch.  No size check happens here. -/
def offer (st : DState) (x : Str) : DState :=
  if x ∈ st.seen then st else ⟨x :: st.seen, st.batch ++ [x], st.flushed⟩

/-- One query window of `backfill`: offer every identity of the window, then
flush (clearing as a unit) only if the batch has reached `batch_size`
(lines 178–181; the same check follows each daily-fallback day). -/
def runWindow (B : Nat) (st : DState) (items : List Str) : DState :=
  flushIfFull B (items.foldl offer st)

/-- The dedup/batch behaviour of a whole `backfill` run (lines 138–187):
`seen` preloaded from the sink, windows processed in order, and a final
flush of any non-empty remainder. -/
def backfillRun (B : Nat) (preload : List Str) (windows : List (List Str)) : DState :=
  flushRemainder (windows.foldl (runWindow B) ⟨preload, [], []⟩)

end Wayback

/-- All identities that have left the offer stage: flushed batches in order,
followed by the current batch. -/
def ledger (st : DState) : List Str := st.flushed.flatten ++ st.batch

/-! ## The index clients -/

namespace CcIndexOnly

/-- Outcome of one HTTP attempt in `fetch_index_records`: a 200 page (already
split into lines), a definitive 400, a rate-limit 429 carrying the raw
`Retry-After` header value (`none` when the header is absent), or a raised
`RequestException` (network error or `raise_for_status`). -/
inductive Resp
  | ok (lines : List Str)
  | code400
  | code429 (retryAfter : Option Str)
  | fail

/-- Python exceptions that `fetch_index_records` can let escape: the 429
branch computes `wait = int(resp.headers.get("Retry-After", backoff))` and
calls `time.sleep(wait)`; a non-numeric header makes `int` raise
`ValueError`, and a negative value makes `time.sleep` raise `ValueError`.
Both calls sit inside the `try`, but `except RequestException` does not
catch `ValueError`, so it escapes the function. -/
inductive PyExn
  | valueError
deriving DecidableEq

/-- The retry loop of `fetch_index_records` (lines 100–129), iterating over
the remaining attempt numbers, with the upstream behaviour abstracted as the
outcome `f attempt` of each attempt.  `.ok none` models Python's implicit
`None` when the `for` loop ends without returning (every attempt
rate-limited); the 429 branch with a header present parses it with `int`
and sleeps, raising `ValueError` (uncaught) when the header is non-numeric
or negative; without a header the wait is the positive internal backoff and
never raises. -/
def fetchLoop (f : Nat → Resp) (retries : Nat) :
    List Nat → Except PyExn (Option (List Str))
  | [] => .ok none
  | attempt :: rest =>
    match f attempt with
    | .ok lines => .ok (some lines)
    | .code400 => .ok (some [])
    | .code429 none => fetchLoop f retries rest
    | .code429 (some h) =>
      match pyInt? h with
      | none => .error .valueError
      | some n => if n < 0 then .error .valueError else fetchLoop f retries rest
    | .fail => if attempt < retries then fetchLoop f retries rest else .ok (some [])

/-- `fetch_index_records` (attempt numbers `1 .. retries`; the script's
default is `retries = 5`). -/
def fetch_index_records (f : Nat → Resp) (retries : Nat) :
    Except PyExn (Option (List Str)) :=
  fetchLoop f retries (List.range' 1 retries)

end CcIndexOnly

namespace Wayback

/-- Outcome of one CDX HTTP request in `stream_cdx`: a 200 response whose
body parsed into a JSON array of rows, or a raised
`HTTPError`/`RequestException`. -/
inductive CdxResp
  | ok (data : List (List Str))
  | fail

/-- Python exceptions that `stream_cdx` can let escape. -/
inductive PyErr
  | indexError
  | requestError
deriving DecidableEq

/-- `[rec[0] for rec in rows]`: first field of each row, raising `IndexError`
on an empty row (list comprehensions evaluate left to right). -/
def headsE : List (List Str) → Except PyErr (List Str)
  | [] => .ok []
  | r :: rs =>
    match r.head? with
    | none => .error .indexError
    | some u =>
      match headsE rs with
      | .error e => .error e
      | .ok us => .ok (u :: us)

/-- `data[-1][-1]`: last field of the last row; either indexing raises
`IndexError` on an empty list. -/
def lastLast (data : List (List Str)) : Except PyErr Str :=
  match data.getLast? with
  | none => .error .indexError
  | some row =>
    match row.getLast? with
    | none => .error .indexError
    | some v => .ok v

/-- The `while resume:` continuation loop of `stream_cdx` (lines 94–110).
The list enumerates successive request outcomes; requests in this loop are
outside the `try`, so a failed request is a raised (uncaught)
`RequestException`, modelled as `.error .requestError` (an exhausted outcome
list is treated the same way). -/
def cdxLoop : List CdxResp → Str → List Str → Except PyErr (Option (List Str))
  | _, [], acc => .ok (some acc)
  | [], _ :: _, _ => .error .requestError
  | .fail :: _, _ :: _, _ => .error .requestError
  | .ok data :: rest, _ :: _, acc =>
    match headsE data.tail with
    | .error e => .error e
    | .ok urls =>
      match lastLast data with
      | .error e => .error e
      | .ok resume => cdxLoop rest resume (acc ++ urls)

/-- `stream_cdx` (lines 67–111): the first request is inside `try`, so its
failure yields the distinguished value `None` (`.ok none`); a successful
parse is followed by `data[1:]` field extraction, `data[-1][-1]` resume-key
extraction (both outside the `try`), and the continuation loop. -/
def stream_cdx (rs : List CdxResp) : Except PyErr (Option (List Str)) :=
  match rs with
  | [] => .ok none
  | .fail :: _ => .ok none
  | .ok data :: rest =>
    match headsE data.tail with
    | .error e => .error e
    | .ok urls =>
      match lastLast data with
      | .error e => .error e
      | .ok resume => cdxLoop rest resume urls

end Wayback

/-! ## Basic facts about `covers` -/

@[simp]
theorem covers_nil (lo hi : Nat) : covers lo hi [] = (lo == hi + 1) := rfl

@[simp]
theorem covers_cons (lo hi a b : Nat) (rest : List (Nat × Nat)) :
    covers lo hi ((a, b) :: rest) =
      ((a == lo) && decide (lo ≤ b) && decide (b ≤ hi) && covers (b + 1) hi rest) := rfl

theorem covers_append {lo mid hi : Nat} {L M : List (Nat × Nat)}
    (hL : covers lo mid L = true) (hM : covers (mid + 1) hi M = true) (hmh : mid ≤ hi) :
    covers lo hi (L ++ M) = true := by
  induction L generalizing lo with
  | nil =>
    simp only [covers_nil, beq_iff_eq] at hL
    simpa [hL] using hM
  | cons w rest ih =>
    obtain ⟨a, b⟩ := w
    simp only [List.cons_append, covers_cons, Bool.and_eq_true, beq_iff_eq,
      decide_eq_true_eq] at hL ⊢
    exact ⟨⟨⟨hL.1.1.1, hL.1.1.2⟩, by omega⟩, ih hL.2⟩

/-! ## Claim theorems: canonicalizer scenarios -/

/-- C1: for raw input `https://m.youtube.com/channel/UCabc123?si=xyz`,
`wayback_cdx_sourcer.normalize_url` returns the canonical identity
`https://www.youtube.com/channel/UCabc123`, but `cc_index_only.normalize_url`
returns the rejection value `""` for the same input (the host makes the
stripped path three segments, so neither Case A nor Case B applies), contrary
to that script's own stated purpose of normalizing channel-URL variants. -/
theorem claim_C1 :
    Wayback.normalize_url "https://m.youtube.com/channel/UCabc123?si=xyz".toList
      = some "https://www.youtube.com/channel/UCabc123".toList
    ∧ CcIndexOnly.normalize_url "https://m.youtube.com/channel/UCabc123?si=xyz".toList
      = [] := by
  constructor <;> rfl

/-- C8: for `wayback_cdx_sourcer.normalize_url`, a browse capture of a channel
id and a direct capture of the same id both canonicalize to
`https://www.youtube.com/channel/UCabc123`; `cc_index_only.normalize_url`,
however, returns the rejection value `""` on the browse capture, contrary to
its docstring (`normalizes all variants (including /browse/...-UC...)`). -/
theorem claim_C8 :
    Wayback.normalize_url "https://www.youtube.com/browse/foo-UCabc123".toList
      = some "https://www.youtube.com/channel/UCabc123".toList
    ∧ Wayback.normalize_url "https://www.youtube.com/channel/UCabc123".toList
      = some "https://www.youtube.com/channel/UCabc123".toList
    ∧ CcIndexOnly.normalize_url "https://www.youtube.com/browse/foo-UCabc123".toList
      = [] := by
  refine ⟨rfl, rfl, rfl⟩

/-! ## Claim theorems: stream_cdx error behaviour -/

/-- C10: when the first CDX query succeeds with a body parsing to an empty
JSON array, `stream_cdx` raises an uncaught `IndexError` from `data[-1]`
(outside the `try` block) instead of returning `[]` or `None`. -/
theorem claim_C10 :
    Wayback.stream_cdx [Wayback.CdxResp.ok []] = Except.error Wayback.PyErr.indexError := rfl

/-- C6 (counterexample): a task whose first CDX page succeeds (with a resume
key) and whose continuation request then hits an upstream failure makes
`stream_cdx` raise an uncaught exception — the failure is not reported by a
distinguished return value, contradicting the claim. -/
theorem claim_C6_cex :
    Wayback.stream_cdx
        [Wayback.CdxResp.ok [["original".toList], ["u1".toList], ["rk".toList]],
         Wayback.CdxResp.fail]
      = Except.error Wayback.PyErr.requestError := rfl

/-- C6 (amended): `fetch_index_records` reports failure without a
distinguished value — on persistent network failure it returns `[]`
(indistinguishable from a definitive empty page) and on persistent
rate-limiting without a `Retry-After` header it falls through to `None` —
and it is not exception-free either: a 429 whose `Retry-After` header is
non-numeric or negative raises an uncaught `ValueError` (from `int` /
`time.sleep`, not caught by `except RequestException`).  `stream_cdx`
reports a first-request failure by the distinguished value `None`, but a
failure on a continuation request escapes as an uncaught exception. -/
theorem claim_C6 :
    CcIndexOnly.fetch_index_records (fun _ => CcIndexOnly.Resp.fail) 5
      = Except.ok (some [])
    ∧ CcIndexOnly.fetch_index_records (fun _ => CcIndexOnly.Resp.code429 none) 5
        = Except.ok none
    ∧ CcIndexOnly.fetch_index_records
          (fun _ => CcIndexOnly.Resp.code429 (some "x".toList)) 5
        = Except.error CcIndexOnly.PyExn.valueError
    ∧ CcIndexOnly.fetch_index_records
          (fun _ => CcIndexOnly.Resp.code429 (some "-1".toList)) 5
        = Except.error CcIndexOnly.PyExn.valueError
    ∧ Wayback.stream_cdx [Wayback.CdxResp.fail] = Except.ok none
    ∧ Wayback.stream_cdx
        [Wayback.CdxResp.ok [["o".toList], ["u".toList], ["k".toList]], Wayback.CdxResp.fail]
      = Except.error Wayback.PyErr.requestError := by
  refine ⟨rfl, rfl, rfl, rfl, rfl, rfl⟩

/-! ## Claim theorems: the daily fallback (adaptive splitter) -/

/-- C5 (counterexample): when the week task `[0, 6]` (span 7 days, inside the
month window `[0, 6]`) fails, the code does not bisect it into two half-span
sub-tasks: it generates seven single-day sub-tasks, one per day of the month
window. -/
theorem claim_C5_cex :
    Wayback.fallback_days 0 6 = [(0, 0), (1, 1), (2, 2), (3, 3), (4, 4), (5, 5), (6, 6)]
    ∧ (Wayback.fallback_days 0 6).length ≠ 2 := by decide

theorem coversSingles (k ms : Nat) :
    covers ms (ms + k) ((List.range (k + 1)).map fun d => (ms + d, ms + d)) = true := by
  induction k generalizing ms with
  | zero => simp [covers]
  | succ k ih =>
    rw [List.range_succ_eq_map, List.map_cons, List.map_map]
    have hmap : ((List.range (k + 1)).map ((fun d => (ms + d, ms + d)) ∘ Nat.succ))
        = (List.range (k + 1)).map fun d => ((ms + 1) + d, (ms + 1) + d) := by
      apply List.map_congr_left
      intro d _
      have h1 : ms + (d + 1) = (ms + 1) + d := by omega
      simp [Function.comp, Nat.succ_eq_add_one, h1]
    rw [hmap]
    have h2 : ms + (k + 1) = (ms + 1) + k := by omega
    rw [h2]
    have h3 := ih (ms + 1)
    simp [covers_cons, h3, Nat.add_zero]
    all_goals omega

/-- C5 (amended): on failure of a weekly task, the fallback produces one
sub-task per day of the enclosing month window `[ms, me]` in a single,
non-recursive level: exactly `me - ms + 1` sub-tasks, every sub-span exactly
one day (never below one day), together covering `[ms, me]` exactly. -/
theorem claim_C5 (ms me : Nat) (h : ms ≤ me) :
    (Wayback.fallback_days ms me).length = me - ms + 1
    ∧ (∀ w ∈ Wayback.fallback_days ms me, w.1 = w.2 ∧ ms ≤ w.1 ∧ w.2 ≤ me)
    ∧ covers ms me (Wayback.fallback_days ms me) = true := by
  refine ⟨by simp [Wayback.fallback_days], ?_, ?_⟩
  · intro w hw
    simp only [Wayback.fallback_days, List.mem_map, List.mem_range] at hw
    obtain ⟨d, hd, rfl⟩ := hw
    exact ⟨rfl, Nat.le_add_right _ _, by omega⟩
  · have := coversSingles (me - ms) ms
    rw [Wayback.fallback_days]
    have hme : ms + (me - ms) = me := by omega
    rw [hme] at this
    exact this

/-- Witness for C5 at the concrete month window `[3, 5]`. -/
theorem claim_C5_w :
    (Wayback.fallback_days 3 5).length = 5 - 3 + 1
    ∧ (∀ w ∈ Wayback.fallback_days 3 5, w.1 = w.2 ∧ 3 ≤ w.1 ∧ w.2 ≤ 5)
    ∧ covers 3 5 (Wayback.fallback_days 3 5) = true :=
  claim_C5 3 5 (by decide)

/-! ## Claim theorems: bare prefixes -/

/-- C3 (counterexample): for the valid range `0001-01-15 .. 0001-01-20`
(absolute days 380..385), the planner's windows do not union to the request
span: the plan starts at the first day of the start month (day 366 =
0001-01-01), so `covers` fails and the very first window `(366, 372)` lies
entirely before the requested start. -/
theorem claim_C3_cex :
    validDate ⟨1, 1, 15⟩ ∧ validDate ⟨1, 1, 20⟩
    ∧ toAbs ⟨1, 1, 15⟩ ≤ toAbs ⟨1, 1, 20⟩
    ∧ covers (toAbs ⟨1, 1, 15⟩) (toAbs ⟨1, 1, 20⟩) (Wayback.planner ⟨1, 1, 15⟩ ⟨1, 1, 20⟩)
        = false
    ∧ (Wayback.planner ⟨1, 1, 15⟩ ⟨1, 1, 20⟩).head? = some (366, 372)
    ∧ 366 < toAbs ⟨1, 1, 15⟩ := by
  refine ⟨by decide, by decide, by decide, by decide, by decide, by decide⟩

/-! ## Claim theorems: batching counterexample -/

/-- C9 (counterexample): in `backfill` the batch-size check runs only at
window boundaries, so with `batch_size = 1` a window containing two novel
identities produces a flushed batch of size 2, exceeding the configured
maximum. -/
theorem claim_C9_cex :
    (Wayback.backfillRun 1 [] [["a".toList, "b".toList]]).flushed
      = [["a".toList, "b".toList]]
    ∧ ¬ (([["a".toList, "b".toList]] : List (List Str)).getD 0 []).length ≤ 1 := by
  refine ⟨by decide, by decide⟩

/-! ## Dedup invariants -/

theorem foldlPreserve {σ α : Type _} (f : σ → α → σ) (P : σ → Prop)
    (hf : ∀ s a, P s → P (f s a)) : ∀ (l : List α) (s : σ), P s → P (l.foldl f s) := by
  intro l
  induction l with
  | nil => exact fun s hs => hs
  | cons a t ih => exact fun s hs => ih _ (hf s a hs)

theorem cc_offer_ledger (B : Nat) (st : DState) (y : Str) :
    ledger (CcIndexOnly.offer B st y)
      = if y ∈ st.seen then ledger st else ledger st ++ [y] := by
  by_cases h : y ∈ st.seen
  · simp [CcIndexOnly.offer, h]
  · simp only [CcIndexOnly.offer, h, if_neg, if_false, ite_false]
    split <;> simp [ledger, List.append_assoc]

theorem cc_offer_seen (B : Nat) (st : DState) (y : Str) :
    (CcIndexOnly.offer B st y).seen = if y ∈ st.seen then st.seen else y :: st.seen := by
  by_cases h : y ∈ st.seen
  · simp [CcIndexOnly.offer, h]
  · simp only [CcIndexOnly.offer, h, if_false, ite_false]
    split <;> rfl

theorem flushRemainder_ledger (st : DState) : ledger (flushRemainder st) = ledger st := by
  unfold flushRemainder
  split <;> simp [ledger]

theorem flushRemainder_seen (st : DState) : (flushRemainder st).seen = st.seen := by
  unfold flushRemainder
  split <;> rfl

theorem flushIfFull_ledger (B : Nat) (st : DState) :
    ledger (flushIfFull B st) = ledger st := by
  unfold flushIfFull
  split <;> simp [ledger]

theorem flushIfFull_seen (B : Nat) (st : DState) : (flushIfFull B st).seen = st.seen := by
  unfold flushIfFull
  split <;> rfl

theorem cc_runPage_ledger (B : Nat) (st : DState) (items : List Str) :
    ledger (CcIndexOnly.runPage B st items)
      = ledger (items.foldl (CcIndexOnly.offer B) st) := by
  rw [CcIndexOnly.runPage, flushRemainder_ledger]

theorem cc_runPage_seen (B : Nat) (st : DState) (items : List Str) :
    (CcIndexOnly.runPage B st items).seen = (items.foldl (CcIndexOnly.offer B) st).seen := by
  rw [CcIndexOnly.runPage, flushRemainder_seen]

theorem wb_offer_ledger (st : DState) (y : Str) :
    ledger (Wayback.offer st y)
      = if y ∈ st.seen then ledger st else ledger st ++ [y] := by
  by_cases h : y ∈ st.seen <;> simp [Wayback.offer, h, ledger, List.append_assoc]

theorem wb_offer_seen (st : DState) (y : Str) :
    (Wayback.offer st y).seen = if y ∈ st.seen then st.seen else y :: st.seen := by
  by_cases h : y ∈ st.seen <;> simp [Wayback.offer, h]

theorem wb_runWindow_ledger (B : Nat) (st : DState) (items : List Str) :
    ledger (Wayback.runWindow B st items) = ledger (items.foldl Wayback.offer st) := by
  rw [Wayback.runWindow, flushIfFull_ledger]

theorem wb_runWindow_seen (B : Nat) (st : DState) (items : List Str) :
    (Wayback.runWindow B st items).seen = (items.foldl Wayback.offer st).seen := by
  rw [Wayback.runWindow, flushIfFull_seen]

theorem wb_final_ledger (B : Nat) (preload : List Str) (windows : List (List Str)) :
    ledger (Wayback.backfillRun B preload windows)
      = ledger (windows.foldl (Wayback.runWindow B) ⟨preload, [], []⟩) := by
  rw [Wayback.backfillRun, flushRemainder_ledger]

theorem wb_final_seen (B : Nat) (preload : List Str) (windows : List (List Str)) :
    (Wayback.backfillRun B preload windows).seen
      = (windows.foldl (Wayback.runWindow B) ⟨preload, [], []⟩).seen := by
  rw [Wayback.backfillRun, flushRemainder_seen]

/-- One offer step preserves "`x` occurs at most once in the ledger, and not
at all while `x` is unseen". -/
theorem onceStep {x y : Str} {st st2 : DState}
    (hled : ledger st2 = if y ∈ st.seen then ledger st else ledger st ++ [y])
    (hseen : st2.seen = if y ∈ st.seen then st.seen else y :: st.seen)
    (h1 : (ledger st).count x ≤ 1)
    (h2 : x ∉ st.seen → (ledger st).count x = 0) :
    (ledger st2).count x ≤ 1 ∧ (x ∉ st2.seen → (ledger st2).count x = 0) := by
  by_cases hy : y ∈ st.seen
  · rw [hled, hseen, if_pos hy, if_pos hy]
    exact ⟨h1, h2⟩
  · rw [hled, hseen, if_neg hy, if_neg hy]
    by_cases hxy : x = y
    · subst hxy
      have h0 : (ledger st).count x = 0 := h2 hy
      refine ⟨?_, ?_⟩
      · rw [List.count_append, h0]
        simp
      · intro hx
        exact absurd (List.mem_cons_self x st.seen) hx
    · have hcy : List.count x [y] = 0 := by
        simp [List.count_singleton]
        exact fun h => absurd h.symm hxy
      refine ⟨?_, ?_⟩
      · rw [List.count_append, hcy]
        omega
      · intro hx
        have hxs : x ∉ st.seen := fun hc => hx (List.mem_cons_of_mem _ hc)
        rw [List.count_append, hcy, h2 hxs]

/-- One offer step preserves "`x` is seen and the ledger never held it"
(the situation of a preloaded identity). -/
theorem zeroStep {x y : Str} {st st2 : DState}
    (hled : ledger st2 = if y ∈ st.seen then ledger st else ledger st ++ [y])
    (hseen : st2.seen = if y ∈ st.seen then st.seen else y :: st.seen)
    (hx : x ∈ st.seen) (h0 : (ledger st).count x = 0) :
    x ∈ st2.seen ∧ (ledger st2).count x = 0 := by
  by_cases hy : y ∈ st.seen
  · rw [hled, hseen, if_pos hy, if_pos hy]
    exact ⟨hx, h0⟩
  · rw [hled, hseen, if_neg hy, if_neg hy]
    have hxy : x ≠ y := fun h => hy (h ▸ hx)
    have hcy : List.count x [y] = 0 := by
      simp [List.count_singleton]
      exact fun h => absurd h.symm hxy
    exact ⟨List.mem_cons_of_mem _ hx, by rw [List.count_append, hcy, h0]⟩

theorem flushed_count_le_ledger (st : DState) (x : Str) :
    st.flushed.flatten.count x ≤ (ledger st).count x := by
  rw [ledger, List.count_append]
  omega

/-- C4: in both programs, for every identity `x`, a whole run flushes `x`
at most once, and never flushes an identity preloaded from the sink. -/
theorem claim_C4 (B : Nat) (preload : List Str) (pages windows : List (List Str)) (x : Str) :
    ((CcIndexOnly.runBatches B preload pages).flushed.flatten.count x ≤ 1
      ∧ (x ∈ preload → (CcIndexOnly.runBatches B preload pages).flushed.flatten.count x = 0))
    ∧ ((Wayback.backfillRun B preload windows).flushed.flatten.count x ≤ 1
      ∧ (x ∈ preload → (Wayback.backfillRun B preload windows).flushed.flatten.count x = 0)) := by
  have init0 : (ledger (⟨preload, [], []⟩ : DState)).count x = 0 := by simp [ledger]
  constructor
  · have honce : (ledger (CcIndexOnly.runBatches B preload pages)).count x ≤ 1
        ∧ (x ∉ (CcIndexOnly.runBatches B preload pages).seen
            → (ledger (CcIndexOnly.runBatches B preload pages)).count x = 0) := by
      refine foldlPreserve _
        (fun st => (ledger st).count x ≤ 1 ∧ (x ∉ st.seen → (ledger st).count x = 0))
        (fun st items hst => ?_) pages _ ⟨by omega, fun _ => init0⟩
      have hfold := foldlPreserve _
        (fun st => (ledger st).count x ≤ 1 ∧ (x ∉ st.seen → (ledger st).count x = 0))
        (fun s a hs => onceStep (cc_offer_ledger B s a) (cc_offer_seen B s a) hs.1 hs.2)
        items st hst
      dsimp only at hfold ⊢
      rw [cc_runPage_ledger, cc_runPage_seen]
      exact hfold
    constructor
    · exact le_trans (flushed_count_le_ledger _ x) honce.1
    · intro hx
      have hzero : x ∈ (CcIndexOnly.runBatches B preload pages).seen
          ∧ (ledger (CcIndexOnly.runBatches B preload pages)).count x = 0 := by
        refine foldlPreserve _
          (fun st => x ∈ st.seen ∧ (ledger st).count x = 0)
          (fun st items hst => ?_) pages _ ⟨hx, init0⟩
        have hfold := foldlPreserve _
          (fun st => x ∈ st.seen ∧ (ledger st).count x = 0)
          (fun s a hs => zeroStep (cc_offer_ledger B s a) (cc_offer_seen B s a) hs.1 hs.2)
          items st hst
        dsimp only at hfold ⊢
        rw [cc_runPage_ledger, cc_runPage_seen]
        exact hfold
      have := flushed_count_le_ledger (CcIndexOnly.runBatches B preload pages) x
      omega
  · have honce : (ledger (Wayback.backfillRun B preload windows)).count x ≤ 1
        ∧ (x ∉ (Wayback.backfillRun B preload windows).seen
            → (ledger (Wayback.backfillRun B preload windows)).count x = 0) := by
      rw [wb_final_ledger, wb_final_seen]
      refine foldlPreserve _
        (fun st => (ledger st).count x ≤ 1 ∧ (x ∉ st.seen → (ledger st).count x = 0))
        (fun st items hst => ?_) windows _ ⟨by omega, fun _ => init0⟩
      have hfold := foldlPreserve _
        (fun st => (ledger st).count x ≤ 1 ∧ (x ∉ st.seen → (ledger st).count x = 0))
        (fun s a hs => onceStep (wb_offer_ledger s a) (wb_offer_seen s a) hs.1 hs.2)
        items st hst
      dsimp only at hfold ⊢
      rw [wb_runWindow_ledger, wb_runWindow_seen]
      exact hfold
    constructor
    · exact le_trans (flushed_count_le_ledger _ x) honce.1
    · intro hx
      have hzero : x ∈ (Wayback.backfillRun B preload windows).seen
          ∧ (ledger (Wayback.backfillRun B preload windows)).count x = 0 := by
        rw [wb_final_ledger, wb_final_seen]
        refine foldlPreserve _
          (fun st => x ∈ st.seen ∧ (ledger st).count x = 0)
          (fun st items hst => ?_) windows _ ⟨hx, init0⟩
        have hfold := foldlPreserve _
          (fun st => x ∈ st.seen ∧ (ledger st).count x = 0)
          (fun s a hs => zeroStep (wb_offer_ledger s a) (wb_offer_seen s a) hs.1 hs.2)
          items st hst
        dsimp only at hfold ⊢
        rw [wb_runWindow_ledger, wb_runWindow_seen]
        exact hfold
      have := flushed_count_le_ledger (Wayback.backfillRun B preload windows) x
      omega

/-- Witness for C4: a run offered the preloaded identity `p` and offered `a`
three times across pages/windows. -/
theorem claim_C4_w :
    (("a".toList : Str) ∈ (["a".toList, "p".toList] : List Str)
      → (CcIndexOnly.runBatches 2 ["a".toList, "p".toList]
          [["b".toList, "a".toList], ["a".toList]]).flushed.flatten.count "a".toList = 0)
    ∧ ((CcIndexOnly.runBatches 2 ["a".toList, "p".toList]
          [["b".toList, "a".toList], ["a".toList]]).flushed.flatten.count "a".toList = 0)
    ∧ ((Wayback.backfillRun 2 ["a".toList, "p".toList]
          [["b".toList, "a".toList], ["a".toList]]).flushed.flatten.count "a".toList = 0) := by
  have h := claim_C4 2 ["a".toList, "p".toList] [["b".toList, "a".toList], ["a".toList]]
    [["b".toList, "a".toList], ["a".toList]] "a".toList
  exact ⟨h.1.2, h.1.2 (by decide), h.2.2 (by decide)⟩

/-! ## Batch-shape invariants -/

theorem cc_offer_inv (B : Nat) (hB : 1 ≤ B) (st : DState) (y : Str)
    (h : st.batch.length < B ∧ st.batch.Nodup ∧ (∀ z ∈ st.batch, z ∈ st.seen)
      ∧ (∀ b ∈ st.flushed, b.length ≤ B ∧ b.Nodup)) :
    (CcIndexOnly.offer B st y).batch.length < B ∧ (CcIndexOnly.offer B st y).batch.Nodup
      ∧ (∀ z ∈ (CcIndexOnly.offer B st y).batch, z ∈ (CcIndexOnly.offer B st y).seen)
      ∧ (∀ b ∈ (CcIndexOnly.offer B st y).flushed, b.length ≤ B ∧ b.Nodup) := by
  obtain ⟨h1, h2, h3, h4⟩ := h
  by_cases hy : y ∈ st.seen
  · simpa [CcIndexOnly.offer, hy] using ⟨h1, h2, h3, h4⟩
  · have hyb : y ∉ st.batch := fun hc => hy (h3 y hc)
    have hnodup : (st.batch ++ [y]).Nodup := by
      rw [List.nodup_append]
      exact ⟨h2, List.nodup_singleton y, by simpa [List.disjoint_singleton] using hyb⟩
    by_cases hflush : B ≤ (st.batch ++ [y]).length
    · simp only [CcIndexOnly.offer, hy, ite_false, if_false, hflush, ite_true, if_true]
      refine ⟨by simpa using hB, by simp, by simp, fun b hb => ?_⟩
      rcases List.mem_append.mp hb with hb | hb
      · exact h4 b hb
      · rw [List.mem_singleton] at hb
        subst hb
        exact ⟨by simp only [List.length_append, List.length_singleton]; omega, hnodup⟩
    · simp only [CcIndexOnly.offer, hy, ite_false, if_false, hflush, ite_true, if_true]
      refine ⟨by omega, hnodup, fun z hz => ?_, h4⟩
      rcases List.mem_append.mp hz with hz | hz
      · exact List.mem_cons_of_mem _ (h3 z hz)
      · rw [List.mem_singleton] at hz
        subst hz
        exact List.mem_cons_self _ _

theorem flushRemainder_inv (B : Nat) (hB : 1 ≤ B) (st : DState)
    (h : st.batch.length < B ∧ st.batch.Nodup ∧ (∀ z ∈ st.batch, z ∈ st.seen)
      ∧ (∀ b ∈ st.flushed, b.length ≤ B ∧ b.Nodup)) :
    (flushRemainder st).batch.length < B ∧ (flushRemainder st).batch.Nodup
      ∧ (∀ z ∈ (flushRemainder st).batch, z ∈ (flushRemainder st).seen)
      ∧ (∀ b ∈ (flushRemainder st).flushed, b.length ≤ B ∧ b.Nodup) := by
  obtain ⟨h1, h2, h3, h4⟩ := h
  unfold flushRemainder
  split
  · refine ⟨by simpa using hB, by simp, by simp, fun b hb => ?_⟩
    rcases List.mem_append.mp hb with hb | hb
    · exact h4 b hb
    · rw [List.mem_singleton] at hb
      subst hb
      exact ⟨Nat.le_of_lt h1, h2⟩
  · exact ⟨h1, h2, h3, h4⟩

theorem wb_offer_inv (st : DState) (y : Str)
    (h : st.batch.Nodup ∧ (∀ z ∈ st.batch, z ∈ st.seen) ∧ (∀ b ∈ st.flushed, b.Nodup)) :
    (Wayback.offer st y).batch.Nodup
      ∧ (∀ z ∈ (Wayback.offer st y).batch, z ∈ (Wayback.offer st y).seen)
      ∧ (∀ b ∈ (Wayback.offer st y).flushed, b.Nodup) := by
  obtain ⟨h2, h3, h4⟩ := h
  by_cases hy : y ∈ st.seen
  · simpa [Wayback.offer, hy] using ⟨h2, h3, h4⟩
  · have hyb : y ∉ st.batch := fun hc => hy (h3 y hc)
    simp only [Wayback.offer, hy, ite_false, if_false]
    refine ⟨?_, fun z hz => ?_, h4⟩
    · rw [List.nodup_append]
      exact ⟨h2, List.nodup_singleton y, by simpa [List.disjoint_singleton] using hyb⟩
    · rcases List.mem_append.mp hz with hz | hz
      · exact List.mem_cons_of_mem _ (h3 z hz)
      · rw [List.mem_singleton] at hz
        subst hz
        exact List.mem_cons_self _ _

theorem flushIfFull_inv (B : Nat) (st : DState)
    (h : st.batch.Nodup ∧ (∀ z ∈ st.batch, z ∈ st.seen) ∧ (∀ b ∈ st.flushed, b.Nodup)) :
    (flushIfFull B st).batch.Nodup
      ∧ (∀ z ∈ (flushIfFull B st).batch, z ∈ (flushIfFull B st).seen)
      ∧ (∀ b ∈ (flushIfFull B st).flushed, b.Nodup) := by
  obtain ⟨h2, h3, h4⟩ := h
  unfold flushIfFull
  split
  · refine ⟨by simp, by simp, fun b hb => ?_⟩
    rcases List.mem_append.mp hb with hb | hb
    · exact h4 b hb
    · rw [List.mem_singleton] at hb
      subst hb
      exact h2
  · exact ⟨h2, h3, h4⟩

theorem flushRemainder_inv_wb (st : DState)
    (h : st.batch.Nodup ∧ (∀ z ∈ st.batch, z ∈ st.seen) ∧ (∀ b ∈ st.flushed, b.Nodup)) :
    (flushRemainder st).batch.Nodup
      ∧ (∀ z ∈ (flushRemainder st).batch, z ∈ (flushRemainder st).seen)
      ∧ (∀ b ∈ (flushRemainder st).flushed, b.Nodup) := by
  obtain ⟨h2, h3, h4⟩ := h
  unfold flushRemainder
  split
  · refine ⟨by simp, by simp, fun b hb => ?_⟩
    rcases List.mem_append.mp hb with hb | hb
    · exact h4 b hb
    · rw [List.mem_singleton] at hb
      subst hb
      exact h2
  · exact ⟨h2, h3, h4⟩

/-- C9 (amended): in `cc_index_only.main` (with a positive batch size) every
batch submitted to the sink has size at most the configured maximum and holds
no duplicate identities; in `wayback_cdx_sourcer.backfill` submitted batches
hold no duplicates (and are cleared as a unit — built into the flush steps),
but the size bound fails there (see the counterexample). -/
theorem claim_C9 (B : Nat) (preload : List Str) (pages windows : List (List Str))
    (hB : 1 ≤ B) :
    (∀ b ∈ (CcIndexOnly.runBatches B preload pages).flushed, b.length ≤ B ∧ b.Nodup)
    ∧ (∀ b ∈ (Wayback.backfillRun B preload windows).flushed, b.Nodup) := by
  constructor
  · have hinv := foldlPreserve (CcIndexOnly.runPage B)
      (fun st => st.batch.length < B ∧ st.batch.Nodup ∧ (∀ z ∈ st.batch, z ∈ st.seen)
        ∧ (∀ b ∈ st.flushed, b.length ≤ B ∧ b.Nodup))
      (fun st items hst => ?_) pages ⟨preload, [], []⟩ ⟨by simpa using hB, by simp, by simp, by simp⟩
    · exact fun b hb => hinv.2.2.2 b hb
    · dsimp only at hst ⊢
      rw [CcIndexOnly.runPage]
      exact flushRemainder_inv B hB _
        (foldlPreserve _ _ (fun s a hs => cc_offer_inv B hB s a hs) items st hst)
  · have hinv := foldlPreserve (Wayback.runWindow B)
      (fun st => st.batch.Nodup ∧ (∀ z ∈ st.batch, z ∈ st.seen)
        ∧ (∀ b ∈ st.flushed, b.Nodup))
      (fun st items hst => ?_) windows ⟨preload, [], []⟩ ⟨by simp, by simp, by simp⟩
    · rw [Wayback.backfillRun]
      exact fun b hb => (flushRemainder_inv_wb _ hinv).2.2 b hb
    · dsimp only at hst ⊢
      rw [Wayback.runWindow]
      exact flushIfFull_inv B _
        (foldlPreserve _ _ (fun s a hs => wb_offer_inv s a hs) items st hst)

/-- Witness for C9 with batch size 2 on a concrete run. -/
theorem claim_C9_w :
    (∀ b ∈ (CcIndexOnly.runBatches 2 ["p".toList]
        [["a".toList, "b".toList, "c".toList]]).flushed, b.length ≤ 2 ∧ b.Nodup)
    ∧ (∀ b ∈ (Wayback.backfillRun 2 ["p".toList]
        [["a".toList, "b".toList, "c".toList]]).flushed, b.Nodup) :=
  claim_C9 2 ["p".toList] [["a".toList, "b".toList, "c".toList]]
    [["a".toList, "b".toList, "c".toList]] (by decide)

/-! ## Calendar arithmetic for the window planner -/

theorem dBM_succ (y m : Nat) :
    daysBeforeMonth y (m + 1) = daysBeforeMonth y m + monthLength y m := rfl

theorem monthLength_pos (y m : Nat) (h1 : 1 ≤ m) (h2 : m ≤ 12) : 1 ≤ monthLength y m := by
  interval_cases m <;> simp only [monthLength] <;> first
    | omega
    | (split <;> omega)

theorem toAbs_in_month (y m d : Nat) : toAbs ⟨y, m, d⟩ = toAbs ⟨y, m, 1⟩ + (d - 1) := by
  simp only [toAbs]
  omega

theorem nextMonthFirst_eta (y m : Nat) :
    nextMonthFirst y m = ⟨(nextMonthFirst y m).y, (nextMonthFirst y m).m, 1⟩ := by
  unfold nextMonthFirst
  split <;> rfl

theorem nextMonthFirst_idx (y m : Nat) :
    (nextMonthFirst y m).y * 12 + (nextMonthFirst y m).m = y * 12 + m + 1 := by
  unfold nextMonthFirst
  by_cases hm : m = 12
  · simp [hm]
    omega
  · simp [hm]
    omega

theorem nextMonthFirst_mb (y m : Nat) (h1 : 1 ≤ m) (h2 : m ≤ 12) :
    1 ≤ (nextMonthFirst y m).m ∧ (nextMonthFirst y m).m ≤ 12 := by
  unfold nextMonthFirst
  by_cases hm : m = 12
  · simp [hm]
  · simp [hm]
    omega

theorem toAbs_first_step (y m : Nat) (h1 : 1 ≤ m) (h2 : m ≤ 12) :
    toAbs (nextMonthFirst y m) = toAbs ⟨y, m, 1⟩ + monthLength y m := by
  unfold nextMonthFirst
  by_cases hm : m = 12
  · subst hm
    rw [if_pos rfl]
    have e1 : daysBeforeMonth (y + 1) 1 = 0 := rfl
    have e2 : daysBeforeYear (y + 1) = daysBeforeYear y + daysInYear y := rfl
    have e3 : daysInYear y = daysBeforeMonth y 12 + monthLength y 12 := rfl
    simp only [toAbs, e1, e2, e3]
    omega
  · rw [if_neg hm]
    simp only [toAbs, dBM_succ]
    omega

/-- First days of months are (weakly) monotone in the month index, gaining at
least one day per month. -/
theorem first_add_le : ∀ (k y m y2 m2 : Nat), 1 ≤ m → m ≤ 12 → 1 ≤ m2 → m2 ≤ 12 →
    y2 * 12 + m2 = y * 12 + m + k →
    toAbs ⟨y, m, 1⟩ + k ≤ toAbs ⟨y2, m2, 1⟩ := by
  intro k
  induction k with
  | zero =>
    intro y m y2 m2 h1 h2 h3 h4 hidx
    have hem : m2 = m ∧ y2 = y := by omega
    obtain ⟨rfl, rfl⟩ := hem
    omega
  | succ k ih =>
    intro y m y2 m2 h1 h2 h3 h4 hidx
    have hb := nextMonthFirst_mb y m h1 h2
    have hstep := toAbs_first_step y m h1 h2
    have hpos := monthLength_pos y m h1 h2
    have hnext := ih (nextMonthFirst y m).y (nextMonthFirst y m).m y2 m2 hb.1 hb.2 h3 h4
      (by rw [nextMonthFirst_idx y m]; omega)
    rw [← nextMonthFirst_eta] at hnext
    omega

theorem end_lt_next (e : Date) (he : validDate e) :
    toAbs e < toAbs ⟨e.y, e.m, 1⟩ + monthLength e.y e.m := by
  obtain ⟨h1, h2, h3, h4⟩ := he
  have h := toAbs_in_month e.y e.m e.d
  have he2 : toAbs e = toAbs ⟨e.y, e.m, e.d⟩ := rfl
  omega

/-- If a month strictly follows the end month, its first day lies strictly
after the end date — so the `while current <= end_dt` condition is false. -/
theorem cond_false_of_past (e : Date) (he : validDate e) (y m : Nat)
    (h1 : 1 ≤ m) (h2 : m ≤ 12) (hidx : e.y * 12 + e.m < y * 12 + m) :
    toAbs e < toAbs ⟨y, m, 1⟩ := by
  have hstep := toAbs_first_step e.y e.m he.1 he.2.1
  have hlt := end_lt_next e he
  have hb := nextMonthFirst_mb e.y e.m he.1 he.2.1
  have hidx2 := nextMonthFirst_idx e.y e.m
  have hle := first_add_le (y * 12 + m - (e.y * 12 + e.m + 1))
    (nextMonthFirst e.y e.m).y (nextMonthFirst e.y e.m).m y m hb.1 hb.2 h1 h2 (by omega)
  rw [← nextMonthFirst_eta] at hle
  omega

/-! ## Coverage of the weekly windows -/

theorem weekGo_covers : ∀ (fuel lo hi : Nat), hi + 1 ≤ fuel + lo → lo ≤ hi →
    covers lo hi (Wayback.weekGo hi fuel lo) = true := by
  intro fuel
  induction fuel with
  | zero =>
    intro lo hi hf hlo
    exfalso
    omega
  | succ fuel ih =>
    intro lo hi hf hlo
    rw [Wayback.weekGo, if_pos hlo, covers_cons]
    have h1b : lo ≤ min (lo + 6) hi := le_min (by omega) hlo
    have h2b : min (lo + 6) hi ≤ hi := min_le_right _ _
    have h3b : covers (min (lo + 6) hi + 1) hi
        (Wayback.weekGo hi fuel (min (lo + 6) hi + 1)) = true := by
      by_cases hend : min (lo + 6) hi = hi
      · rw [hend]
        have hgo : Wayback.weekGo hi fuel (hi + 1) = [] := by
          cases fuel with
          | zero => rfl
          | succ f => rw [Wayback.weekGo, if_neg (by omega)]
        rw [hgo]
        simp
      · have hle6 : lo + 6 ≤ hi := by
          rcases Nat.le_total (lo + 6) hi with h | h
          · exact h
          · exact absurd (Nat.min_eq_right h) hend
        have hmin : min (lo + 6) hi = lo + 6 := Nat.min_eq_left hle6
        rw [hmin]
        exact ih (lo + 7) hi (by omega) (by omega)
    simp [h1b, h2b, h3b]

theorem week_ranges_covers (lo hi : Nat) (h : lo ≤ hi) :
    covers lo hi (Wayback.week_ranges lo hi) = true :=
  weekGo_covers (hi + 1 - lo) lo hi (by omega) h

/-! ## Coverage of the month plan -/

theorem monthAux_nil (e : Date) (fuel y m : Nat) (h : toAbs e < toAbs ⟨y, m, 1⟩) :
    Wayback.monthWindowsAux e fuel y m = [] := by
  cases fuel with
  | zero => rfl
  | succ f => rw [Wayback.monthWindowsAux, if_neg (by omega)]

theorem monthAux_covers (e : Date) (he : validDate e) :
    ∀ (fuel y m : Nat), 1 ≤ m → m ≤ 12 → e.y * 12 + e.m + 1 ≤ fuel + (y * 12 + m) →
      toAbs ⟨y, m, 1⟩ ≤ toAbs e →
      covers (toAbs ⟨y, m, 1⟩) (toAbs e)
        ((Wayback.monthWindowsAux e fuel y m).flatMap
          fun w => Wayback.week_ranges (toAbs w.1) (toAbs w.2)) = true := by
  intro fuel
  induction fuel with
  | zero =>
    intro y m h1 h2 hf hcond
    exfalso
    have := cond_false_of_past e he y m h1 h2 (by omega)
    omega
  | succ fuel ih =>
    intro y m h1 h2 hf hcond
    rw [Wayback.monthWindowsAux, if_pos hcond, List.flatMap_cons]
    have hpos := monthLength_pos y m h1 h2
    have hstep := toAbs_first_step y m h1 h2
    have hb := nextMonthFirst_mb y m h1 h2
    have hidx := nextMonthFirst_idx y m
    have hlast := toAbs_in_month y m (monthLength y m)
    by_cases hclip : toAbs e < toAbs ⟨y, m, monthLength y m⟩
    · rw [if_pos hclip]
      have hnil : Wayback.monthWindowsAux e fuel (nextMonthFirst y m).y
          (nextMonthFirst y m).m = [] := by
        apply monthAux_nil
        have : toAbs ⟨(nextMonthFirst y m).y, (nextMonthFirst y m).m, 1⟩
            = toAbs (nextMonthFirst y m) := by rw [← nextMonthFirst_eta]
        omega
      rw [hnil]
      simp only [List.flatMap_nil, List.append_nil]
      exact week_ranges_covers _ _ hcond
    · rw [if_neg hclip]
      have hge : toAbs ⟨y, m, monthLength y m⟩ ≤ toAbs e := by omega
      have hweeks := week_ranges_covers (toAbs ⟨y, m, 1⟩) (toAbs ⟨y, m, monthLength y m⟩)
        (by omega)
      by_cases heq : toAbs ⟨y, m, monthLength y m⟩ = toAbs e
      · have hnil : Wayback.monthWindowsAux e fuel (nextMonthFirst y m).y
            (nextMonthFirst y m).m = [] := by
          apply monthAux_nil
          have : toAbs ⟨(nextMonthFirst y m).y, (nextMonthFirst y m).m, 1⟩
              = toAbs (nextMonthFirst y m) := by rw [← nextMonthFirst_eta]
          omega
        rw [hnil]
        simp only [List.flatMap_nil, List.append_nil]
        rw [← heq]
        exact hweeks
      · have hlt : toAbs ⟨y, m, monthLength y m⟩ < toAbs e := by omega
        have heta : toAbs ⟨(nextMonthFirst y m).y, (nextMonthFirst y m).m, 1⟩
            = toAbs (nextMonthFirst y m) := by rw [← nextMonthFirst_eta]
        have hrest := ih (nextMonthFirst y m).y (nextMonthFirst y m).m hb.1 hb.2
          (by omega) (by omega)
        refine covers_append hweeks ?_ hge
        have hmid : toAbs ⟨y, m, monthLength y m⟩ + 1
            = toAbs ⟨(nextMonthFirst y m).y, (nextMonthFirst y m).m, 1⟩ := by omega
        rw [hmid]
        exact hrest

/-- C3 (amended): for every valid `[start, end]` with `start ≤ end`, the plan
produced by `month_boundaries` composed with `week_ranges` is ordered,
non-overlapping and gap-free, and its union is exactly
`[first day of start's month, end]` — it never omits a day of the request
span and never extends past `end`, but it includes the days of start's month
before `start` whenever `start` is not the first of its month (see the
counterexample). -/
theorem claim_C3 (s e : Date) (hs : validDate s) (he : validDate e)
    (hse : toAbs s ≤ toAbs e) :
    covers (toAbs ⟨s.y, s.m, 1⟩) (toAbs e) (Wayback.planner s e) = true := by
  have hsd : toAbs s = toAbs ⟨s.y, s.m, s.d⟩ := rfl
  have hsm := toAbs_in_month s.y s.m s.d
  have hcond : toAbs ⟨s.y, s.m, 1⟩ ≤ toAbs e := by omega
  unfold Wayback.planner Wayback.month_boundaries
  apply monthAux_covers e he _ s.y s.m hs.1 hs.2.1 ?_ hcond
  by_cases hscmp : s.y * 12 + s.m ≤ e.y * 12 + e.m + 1
  · omega
  · exfalso
    have := cond_false_of_past e he s.y s.m hs.1 hs.2.1 (by omega)
    omega

/-- Witness for C3 on `0001-01-05 .. 0001-02-03`. -/
theorem claim_C3_w :
    validDate ⟨1, 1, 5⟩ ∧ validDate ⟨1, 2, 3⟩ ∧ toAbs ⟨1, 1, 5⟩ ≤ toAbs ⟨1, 2, 3⟩
    ∧ covers (toAbs ⟨1, 1, 1⟩) (toAbs ⟨1, 2, 3⟩)
        (Wayback.planner ⟨1, 1, 5⟩ ⟨1, 2, 3⟩) = true :=
  ⟨by decide, by decide, by decide,
    claim_C3 ⟨1, 1, 5⟩ ⟨1, 2, 3⟩ (by decide) (by decide) (by decide)⟩

/-! ## String lemmas for the canonicalizer -/

theorem pyUnquote_cons_ne (c : Char) (t : Str) (hc : c ≠ '%') :
    pyUnquote (c :: t) = c :: pyUnquote t := by
  rw [pyUnquote.eq_def]
  split
  all_goals simp_all

theorem pyUnquote_id (l : Str) (h : ∀ c ∈ l, c ≠ '%') : pyUnquote l = l := by
  induction l with
  | nil => rfl
  | cons c t ih =>
    rw [pyUnquote_cons_ne c t (h c (List.mem_cons_self _ _)),
      ih (fun x hx => h x (List.mem_cons_of_mem _ hx))]

theorem takeWhile_append_all (p : Char → Bool) :
    ∀ (a b : Str), (∀ c ∈ a, p c = true) → (a ++ b).takeWhile p = a ++ b.takeWhile p := by
  intro a
  induction a with
  | nil => intro b _; simp
  | cons c t ih =>
    intro b h
    rw [List.cons_append, List.takeWhile_cons, if_pos (h c (List.mem_cons_self _ _)),
      ih b (fun x hx => h x (List.mem_cons_of_mem _ hx)), List.cons_append]

theorem takeWhile_all (p : Char → Bool) (a : Str) (h : ∀ c ∈ a, p c = true) :
    a.takeWhile p = a := List.takeWhile_eq_self_iff.mpr h

theorem takeWhile_stop (p : Char → Bool) :
    ∀ (a : Str) (c : Char) (b : Str), (∀ x ∈ a, p x = true) → p c = false →
      (a ++ c :: b).takeWhile p = a := by
  intro a
  induction a with
  | nil => intro c b _ hc; simp [List.takeWhile_cons, hc]
  | cons d t ih =>
    intro c b h hc
    rw [List.cons_append, List.takeWhile_cons, if_pos (h d (List.mem_cons_self _ _)),
      ih c b (fun x hx => h x (List.mem_cons_of_mem _ hx)) hc]

theorem dropWhile_stop (p : Char → Bool) :
    ∀ (a : Str) (c : Char) (b : Str), (∀ x ∈ a, p x = true) → p c = false →
      (a ++ c :: b).dropWhile p = c :: b := by
  intro a
  induction a with
  | nil => intro c b _ hc; simp [List.dropWhile_cons, hc]
  | cons d t ih =>
    intro c b h hc
    rw [List.cons_append, List.dropWhile_cons, if_pos (h d (List.mem_cons_self _ _))]
    exact ih c b (fun x hx => h x (List.mem_cons_of_mem _ hx)) hc

theorem rstripSlash_keep (l : Str) (h : l.getLast? ≠ some '/') : rstripSlash l = l := by
  unfold rstripSlash
  cases hl : l.reverse with
  | nil =>
    have h0 : l = [] := List.reverse_eq_nil_iff.mp hl
    simp [h0]
  | cons c t =>
    have hgl : l.getLast? = some c := by rw [← List.head?_reverse, hl]; rfl
    have hc : ¬ (c = '/') := fun hcc => h (by rw [hgl, hcc])
    rw [List.dropWhile_cons, if_neg (by simpa using hc), ← hl, List.reverse_reverse]

theorem getLast?_append_right (a q : Str) (hq : q ≠ []) :
    (a ++ q).getLast? = q.getLast? := by
  rw [List.getLast?_append]
  cases hq2 : q.getLast? with
  | none =>
    exfalso
    exact hq (by simpa using hq2)
  | some v => rfl

theorem rstripSlash_append_keep (a q : Str) (hq : q ≠ []) (h : q.getLast? ≠ some '/') :
    rstripSlash (a ++ q) = a ++ q := by
  apply rstripSlash_keep
  rw [getLast?_append_right a q hq]
  exact h

theorem isPrefixOf_append_self (a l : Str) : a.isPrefixOf (a ++ l) = true :=
  List.isPrefixOf_iff_prefix.mpr (List.prefix_append a l)

theorem head_of_slash_pre (p q : Str) (hp : p.isPrefixOf q = true)
    (hps : p.head? = some '/') : q.head? = some '/' := by
  obtain ⟨r, rfl⟩ := List.isPrefixOf_iff_prefix.mp hp
  cases p with
  | nil => simp at hps
  | cons c t =>
    simp only [List.head?_cons, Option.some.injEq] at hps
    simp [hps]

theorem stripScheme_https (r : Str) :
    Wayback.stripSchemePart ("https://".toList ++ r) = "//".toList ++ r := by
  have hsplit : ("https://".toList : Str) ++ r
      = "https".toList ++ ':' :: ("//".toList ++ r) := by
    rw [show ("https://".toList : Str) = "https".toList ++ ':' :: "//".toList from rfl,
      List.append_assoc, List.cons_append]
  rw [hsplit]
  have hpre : ("https".toList ++ ':' :: ("//".toList ++ r)).takeWhile Wayback.isSchemeChar
      = "https".toList := takeWhile_stop _ _ _ _ (by decide) (by decide)
  unfold Wayback.stripSchemePart
  rw [hpre]
  have hdrop : ("https".toList ++ ':' :: ("//".toList ++ r)).drop
      ("https".toList : Str).length = ':' :: ("//".toList ++ r) := by
    rw [List.drop_append_of_le_length (le_refl _)]
    simp
  rw [hdrop]
  show (if ("https".toList : Str) ≠ [] ∧ (("https".toList : Str).headD ' ').isAlpha = true
      then "//".toList ++ r else "https".toList ++ ':' :: ("//".toList ++ r))
    = "//".toList ++ r
  rw [if_pos (by decide)]

theorem urlsplitPath_base (q : Str) (hq0 : q.head? = some '/')
    (hch : ∀ c ∈ q, c ≠ '%' ∧ c ≠ '?' ∧ c ≠ '#') :
    Wayback.urlsplitPath (Wayback.ytBase ++ q) = q := by
  obtain ⟨q2, rfl⟩ : ∃ q2, q = '/' :: q2 := by
    cases q with
    | nil => simp at hq0
    | cons c t =>
      simp only [List.head?_cons, Option.some.injEq] at hq0
      exact ⟨t, by rw [hq0]⟩
  have hdef : Wayback.defrag (Wayback.ytBase ++ '/' :: q2) = Wayback.ytBase ++ '/' :: q2 := by
    unfold Wayback.defrag
    rw [takeWhile_append_all _ _ _ (by decide),
      takeWhile_all _ _ (fun c hc => by simpa using (hch c hc).2.2)]
  have hyt : (Wayback.ytBase : Str) ++ '/' :: q2
      = "https://".toList ++ ("www.youtube.com".toList ++ '/' :: q2) := by
    rw [show (Wayback.ytBase : Str) = "https://".toList ++ "www.youtube.com".toList from rfl,
      List.append_assoc]
  unfold Wayback.urlsplitPath
  rw [hdef, hyt, stripScheme_https,
    if_pos (isPrefixOf_append_self "//".toList ("www.youtube.com".toList ++ '/' :: q2))]
  have hdrop2 : (("//".toList : Str) ++ ("www.youtube.com".toList ++ '/' :: q2)).drop 2
      = "www.youtube.com".toList ++ '/' :: q2 := by
    rw [List.drop_append_of_le_length (by decide)]
    rfl
  rw [hdrop2, dropWhile_stop _ _ _ _ (by decide) (by decide),
    takeWhile_all _ _ (fun c hc => by simpa using (hch c hc).2.1)]

theorem hasSub_single_false (x : Char) : ∀ (l : Str), (∀ c ∈ l, c ≠ x) →
    hasSub [x] l = false := by
  intro l
  induction l with
  | nil => intro _; rfl
  | cons c t ih =>
    intro h
    have hcf : (x == c) = false := by
      rw [beq_eq_false_iff_ne]
      exact fun hxc => (h c (List.mem_cons_self _ _)) hxc.symm
    show ([x].isPrefixOf (c :: t) || hasSub [x] t) = false
    rw [ih (fun z hz => h z (List.mem_cons_of_mem _ hz))]
    simp [List.isPrefixOf, hcf]

theorem stripParams_id (p : Str) (h : hasSub [';'] p = false) :
    Wayback.stripParams p = p := by
  unfold Wayback.stripParams
  rw [if_neg (by simp [h])]

theorem urlparsePath_base (q : Str) (hq0 : q.head? = some '/')
    (hch : ∀ c ∈ q, c ≠ '%' ∧ c ≠ '?' ∧ c ≠ '#' ∧ c ≠ ';') :
    Wayback.urlparsePath (Wayback.ytBase ++ q) = q := by
  unfold Wayback.urlparsePath
  rw [urlsplitPath_base q hq0
    (fun c hc => ⟨(hch c hc).1, (hch c hc).2.1, (hch c hc).2.2.1⟩)]
  exact stripParams_id q (hasSub_single_false ';' q (fun c hc => (hch c hc).2.2.2))

theorem wbPath_base (q : Str) (hq0 : q.head? = some '/')
    (hch : ∀ c ∈ q, c ≠ '%' ∧ c ≠ '?' ∧ c ≠ '#' ∧ c ≠ ';') :
    Wayback.pathOf (Wayback.ytBase ++ q) = q := by
  unfold Wayback.pathOf
  rw [urlparsePath_base q hq0 hch]
  exact pyUnquote_id q (fun c hc => (hch c hc).1)

/-! ## Claim theorems: canonicalizer idempotence -/

/-- C2 (counterexample): `wayback_cdx_sourcer.normalize_url` produces the
identity `https://www.youtube.com/channel/UC` from the raw input
`https://youtube.com/browse/UC`, but applying it again to that identity
returns `None` (the bare-prefix check rejects it) instead of the identity;
and every Case-B output of `cc_index_only.normalize_url` re-normalizes to
the rejection value `""`. -/
theorem claim_C2_cex :
    Wayback.normalize_url "https://youtube.com/browse/UC".toList
      = some "https://www.youtube.com/channel/UC".toList
    ∧ Wayback.normalize_url "https://www.youtube.com/channel/UC".toList = none
    ∧ CcIndexOnly.normalize_url "browse/x/a-UCabc".toList
      = "https://www.youtube.com/channel/UCabc".toList
    ∧ CcIndexOnly.normalize_url "https://www.youtube.com/channel/UCabc".toList = [] := by
  refine ⟨rfl, rfl, rfl, rfl⟩

/-- C2 (amended): re-canonicalization is the identity on every canonical
identity `https://www.youtube.com<q>` whose path `q` starts with a recognized
prefix, contains no `%`, `?`, `#` or `;` (a `;` starts urlparse's parameter
section) and no ASCII control or space characters (which `urlsplit`
strips), has no trailing slash, is not a bare prefix, and does not embed
the browse marker — for such `q`, `wayback_cdx_sourcer.normalize_url` maps
the identity to itself.  The remaining canonical identities can be
re-rejected or altered (see the counterexample). -/
theorem claim_C2 (q : Str)
    (hpre : ∃ p ∈ Wayback.fivePre, p.isPrefixOf q = true)
    (hch : ∀ c ∈ q, c ≠ '%' ∧ c ≠ '?' ∧ c ≠ '#' ∧ c ≠ ';' ∧ ' ' < c)
    (hlast : q.getLast? ≠ some '/')
    (hbare : q ∉ Wayback.bareFive)
    (hbrowse : hasSub Wayback.browseMark q = false) :
    Wayback.normalize_url (Wayback.ytBase ++ q) = some (Wayback.ytBase ++ q) := by
  obtain ⟨p, hp, hpq⟩ := hpre
  have hph : p.head? = some '/' := by
    simp [Wayback.fivePre] at hp
    rcases hp with rfl | rfl | rfl | rfl | rfl <;> rfl
  have hq0 : q.head? = some '/' := head_of_slash_pre p q hpq hph
  have hqne : q ≠ [] := by
    intro h0
    rw [h0] at hq0
    simp at hq0
  have hpath : Wayback.pathOf (Wayback.ytBase ++ q) = q := wbPath_base q hq0
    (fun c hc => ⟨(hch c hc).1, (hch c hc).2.1, (hch c hc).2.2.1, (hch c hc).2.2.2.1⟩)
  have hrs : rstripSlash q = q := rstripSlash_keep q hlast
  have hany : Wayback.fivePre.any (fun p => p.isPrefixOf (q : Str)) = true :=
    List.any_eq_true.mpr ⟨p, hp, hpq⟩
  unfold Wayback.normalize_url
  rw [hpath, hrs, if_neg hbare, hbrowse, Bool.false_and, if_neg (by simp), if_pos hany,
    rstripSlash_append_keep _ q hqne hlast]

/-- Witness for C2 at the canonical identity
`https://www.youtube.com/channel/UCabc123`. -/
theorem claim_C2_w :
    Wayback.normalize_url (Wayback.ytBase ++ "/channel/UCabc123".toList)
      = some (Wayback.ytBase ++ "/channel/UCabc123".toList) :=
  claim_C2 "/channel/UCabc123".toList (by decide) (by decide) (by decide) (by decide)
    (by decide)
